import Mathlib

/-!
Verification of the TCI client library (package `client`).

The definitions below are shallow embeddings of the Go source:
* `sampleBuffer` with `Write`, `Read`, `Length`, `HasNext`, … embeds the
  ring buffer of the stream file (`sampleBuffer` in the source).
* `RXAudioStream` embeds the audio stream subscription.
* `Message`, `ParseTextMessage`, `Message.IsReplyTo`, `escapeCWText` embed
  the text message codec.
* `ParseBinaryMessage` embeds the binary frame codec, with float32 samples
  represented by their 32-bit little-endian bit patterns.
* `writeLoopInFlightStep` and `Client.send` embed the command pipeline.

Go byte slices are lists of `Nat` (each < 256 where relevant), Go strings
are lists of `Char`, and Go float32 sample values are treated as opaque
elements of an arbitrary type `α`, since the ring buffer only copies them.
-/

namespace TCI

/-- Embeds Go's `copy(dst[lo:hi], src)`: copies `min (hi - lo) src.length`
elements of `src` into `dst` starting at index `lo` (also clamped to the
length of `dst`, as Go's `copy` never writes past the destination). -/
def goCopy {α : Type} (dst : List α) (lo hi : Nat) (src : List α) : List α :=
  let n := min (min (hi - lo) (dst.length - lo)) src.length
  dst.take lo ++ src.take n ++ dst.drop (lo + n)

/-- Embeds Go's slice expression `l[lo:hi]`. -/
def goSlice {α : Type} (l : List α) (lo hi : Nat) : List α :=
  (l.drop lo).take (hi - lo)

/-- Embeds `sampleBuffer`: a ring buffer over a fixed slice `samples` of
length capacity+1 with a read and a write cursor. -/
structure sampleBuffer (α : Type) where
  read : Nat
  write : Nat
  samples : List α
deriving DecidableEq, Repr

/-- Embeds `newSampleBuffer(capacity)` (the Go constructor panics for
`capacity < 1`; we only ever apply it to positive capacities). -/
def newSampleBuffer (α : Type) [Inhabited α] (capacity : Nat) : sampleBuffer α :=
  ⟨0, 0, List.replicate (capacity + 1) default⟩

/-- Embeds `sampleBuffer.Length`. -/
def sampleBuffer.Length {α : Type} (b : sampleBuffer α) : Nat :=
  if b.write = b.read then 0
  else if b.write < b.read then b.samples.length - (b.read - b.write)
  else b.write - b.read

/-- Embeds `sampleBuffer.HasNext`. -/
def sampleBuffer.HasNext {α : Type} (b : sampleBuffer α) : Bool :=
  b.read ≠ b.write

/-- Embeds `sampleBuffer.Read(to)`: `toLen` is `len(to)`; the first
component is the data copied into `to`, the second the updated buffer. -/
def sampleBuffer.Read {α : Type} (b : sampleBuffer α) (toLen : Nat) :
    List α × sampleBuffer α :=
  let capacity := b.samples.length
  let count := min toLen b.Length
  if b.read + count < capacity then
    (goSlice b.samples b.read (b.read + count), { b with read := b.read + count })
  else
    let remainder := count - (capacity - b.read)
    (goSlice b.samples b.read capacity ++ goSlice b.samples 0 remainder,
     { b with read := remainder })

/-- Embeds `sampleBuffer.Write(from)` (the returned count is `from.length`
and the returned error is always nil in the source, so only the state is
modelled). -/
def sampleBuffer.Write {α : Type} (b : sampleBuffer α) (xs : List α) :
    sampleBuffer α :=
  let capacity := b.samples.length
  let count := xs.length
  let newWrite := (b.write + count) % capacity
  if capacity < count then
    let pivot := count - newWrite
    let s1 := goCopy b.samples 0 newWrite (goSlice xs pivot count)
    let s2 := goCopy s1 newWrite capacity
      (goSlice xs (pivot - (capacity - newWrite)) pivot)
    { read := (newWrite + 1) % capacity, write := newWrite, samples := s2 }
  else if capacity ≤ b.write + count then
    let pivot := capacity - b.write
    let s1 := goCopy b.samples b.write capacity (goSlice xs 0 pivot)
    let s2 := goCopy s1 0 capacity (goSlice xs pivot count)
    { read := if b.read ≤ newWrite then (newWrite + 1) % capacity else b.read,
      write := newWrite, samples := s2 }
  else
    let s1 := goCopy b.samples b.write capacity xs
    { read := if b.write < b.read ∧ b.read ≤ newWrite
              then (newWrite + 1) % capacity else b.read,
      write := newWrite, samples := s1 }

/-- Embeds `sampleBuffer.PeekNext`. -/
def sampleBuffer.PeekNext {α : Type} [Inhabited α] (b : sampleBuffer α) : α :=
  if b.read = b.write then default else b.samples.getD b.read default

/-- Embeds `AudioSampleRate` (an integer enumeration in the source). -/
abbrev AudioSampleRate := Nat

/-- Embeds `RXAudioStream`: the audio stream subscription. The one-slot
wake channel `rxWait` is modelled by a flag that says whether a signal is
pending; the non-blocking send in the source sets it, a receive clears it.
The deregistration callback `closer` is outside this model. -/
structure RXAudioStream (α : Type) where
  trx : Int
  sampleRate : AudioSampleRate
  closed : Bool
  rxBuffer : sampleBuffer α
  rxWait : Bool
deriving DecidableEq, Repr

/-- Embeds `RXAudioStream.RXAudio(trx, sampleRate, samples)`, the deliver
side of the subscription. -/
def RXAudioStream.RXAudio {α : Type} (s : RXAudioStream α) (trx : Int)
    (_sampleRate : AudioSampleRate) (samples : List α) : RXAudioStream α :=
  if trx ≠ s.trx then s
  else if s.closed then s
  else { s with rxBuffer := s.rxBuffer.Write samples, rxWait := true }

/-- Embeds `RXAudioStream.Close` (the call to the deregistration callback
`closer` is outside this model; the returned error is always nil). -/
def RXAudioStream.Close {α : Type} (s : RXAudioStream α) : RXAudioStream α :=
  if s.closed then s else { s with closed := true }

/-!  ### Text message codec  -/

/-- The character class `[A-Za-z_]` of the name group of `messageExp`. -/
def isNameChar (c : Char) : Bool :=
  ('A' ≤ c && c ≤ 'Z') || ('a' ≤ c && c ≤ 'z') || c = '_'

/-- The character class `[A-Za-z0-9-.]` of the argument group of
`messageExp`. -/
def isArgChar (c : Char) : Bool :=
  ('A' ≤ c && c ≤ 'Z') || ('a' ≤ c && c ≤ 'z') || ('0' ≤ c && c ≤ '9') ||
  c = '-' || c = '.'

/-- Embeds `Message`. -/
structure Message where
  name : List Char
  args : List (List Char)
  responseRequired : Bool
deriving DecidableEq, Repr

/-- Embeds Go's `strings.TrimSpace`. -/
def trimSpace (s : List Char) : List Char :=
  ((s.dropWhile Char.isWhitespace).reverse.dropWhile Char.isWhitespace).reverse

/-- Embeds `newMessage(name, responseRequired, args)`; the `args` are the
already rendered strings (`fmt.Sprintf("%v", arg)` in the source). -/
def newMessage (name : List Char) (responseRequired : Bool)
    (args : List (List Char)) : Message :=
  { name := (trimSpace name).map Char.toLower,
    args := args.map trimSpace,
    responseRequired := responseRequired }

/-- Embeds `NewCommandMessage`. -/
def NewCommandMessage (name : List Char) (args : List (List Char)) : Message :=
  newMessage name false args

/-- Embeds `NewRequestMessage`. -/
def NewRequestMessage (name : List Char) (args : List (List Char)) : Message :=
  newMessage name true args

/-- Embeds `Message.String()`: the wire form `name;` or `name:a1,a2,...;`. -/
def Message.String (m : Message) : List Char :=
  if m.args = [] then m.name ++ [';']
  else m.name ++ [':'] ++ List.intercalate [','] m.args ++ [';']

/-- Embeds `Message.IsReplyTo(o)`: `strings.HasPrefix(m.String(), p)` where
`p` is `o.String()` without its final character, written as a take-and-
compare (which is exactly what `HasPrefix` means). -/
def Message.IsReplyTo (m o : Message) : Bool :=
  let os := o.String
  let pfx := os.take (os.length - 1)
  (m.String.take pfx.length) = pfx

/-- One step of the `(,[A-Za-z0-9-.]+)*` loop of `messageExp`: greedily
consume comma-separated non-empty argument-character runs, returning the
consumed characters and the rest.  Together with `matchAt` this embeds the
leftmost-first matching that Go's `regexp.FindStringSubmatch` performs on
`messageExp` (see `matchAt` for why no backtracking case is needed). -/
def moreArgs : List Char → List Char × List Char
  | [] => ([], [])
  | c :: rest =>
    if c = ',' ∧ rest.takeWhile isArgChar ≠ [] then
      let run := rest.takeWhile isArgChar
      let p := moreArgs (rest.dropWhile isArgChar)
      (c :: run ++ p.1, p.2)
    else ([], c :: rest)
termination_by s => s.length
decreasing_by
  simp only [List.length_cons]
  exact Nat.lt_succ_of_le ((List.dropWhile_sublist _).length_le)

/-- Match `messageExp` at the start of `s`, returning the captured `name`
and `args` submatches.  This is the exact leftmost-first semantics of the
regular expression `(?P<name>[A-Za-z_]+)(:(?P<args>...))?;` at one start
position: the name run is maximal (shortening it puts a name character
where `:`/`;` is required, so backtracking it can never succeed), the
optional group is taken when possible and abandoned wholesale otherwise
(after which the mandatory `;` would have to stand where the `:` is), and
argument runs are maximal for the same reason. -/
def matchAt (s : List Char) : Option (List Char × List Char) :=
  let name := s.takeWhile isNameChar
  if name = [] then none
  else
    match s.dropWhile isNameChar with
    | [] => none
    | c :: rest =>
      if c = ':' then
        let arg1 := rest.takeWhile isArgChar
        if arg1 = [] then none
        else
          let p := moreArgs (rest.dropWhile isArgChar)
          match p.2 with
          | [] => none
          | d :: _ => if d = ';' then some (name, arg1 ++ p.1) else none
      else if c = ';' then some (name, [])
      else none

/-- The unanchored search of `regexp.FindStringSubmatch`: try each start
position from the left, return the first success. -/
def findMessage : List Char → Option (List Char × List Char)
  | [] => none
  | c :: rest =>
    match matchAt (c :: rest) with
    | some r => some r
    | none => findMessage rest

/-- Embeds `ParseTextMessage`: run the regular-expression search, then
lower-case the trimmed name and split the args submatch on `,` (an empty
args submatch yields an empty argument list).  A `none` result embeds the
`invalid message format` error. -/
def ParseTextMessage (s : List Char) : Option Message :=
  match findMessage s with
  | none => none
  | some (name, argsStr) =>
    some { name := (trimSpace name).map Char.toLower,
           args := if argsStr = [] then [] else argsStr.splitOn ',',
           responseRequired := false }

/-- Embeds `escapeCWText`.  `replaceAllChar` embeds `strings.ReplaceAll`
for a single-character pattern and single-character replacement, which is
a character-wise map. -/
def replaceAllChar (s : List Char) (o n : Char) : List Char :=
  s.map fun c => if c = o then n else c

/-- Embeds `escapeCWText`. -/
def escapeCWText (text : List Char) : List Char :=
  let r1 := replaceAllChar text ':' '^'
  let r2 := replaceAllChar r1 ',' '~'
  let r3 := replaceAllChar r2 ';' '*'
  if r3 = [] then ['_'] else r3

/-!  ### Binary message codec

Bytes are `Nat` values (< 256 in well-formed input); a float32 sample is
represented by its 32-bit little-endian bit pattern, since the codec never
interprets the sample values. -/

/-- The `BinaryMessageType` constants `IQStreamMessage`,
`RXAudioStreamMessage`, `TXAudioStreamMessage`, `TXChronoMessage`. -/
def IQStreamMessage : Nat := 0

/-- `RXAudioStreamMessage = 1`. -/
def RXAudioStreamMessage : Nat := 1

/-- `TXAudioStreamMessage = 2`. -/
def TXAudioStreamMessage : Nat := 2

/-- `TXChronoMessage = 3`. -/
def TXChronoMessage : Nat := 3

/-- Embeds `BinaryMessage` (`Data` holds the float32 bit patterns). -/
structure BinaryMessage where
  TRX : Nat
  SampleRate : Nat
  Format : Nat
  Codec : Nat
  CRC : Nat
  DataLength : Nat
  «Type» : Nat
  Data : List Nat
deriving DecidableEq, Repr

/-- Read one little-endian uint32 from a byte stream, as
`binary.Read(buf, binary.LittleEndian, …)` does field by field; `none`
embeds the truncation error. -/
def readU32LE : List Nat → Option (Nat × List Nat)
  | b0 :: b1 :: b2 :: b3 :: rest =>
    some (b0 + 256 * (b1 + 256 * (b2 + 256 * b3)), rest)
  | _ => none

/-- Read `n` consecutive little-endian 32-bit words (used both for the 9
reserved header words and for the float32 payload). -/
def readU32s : Nat → List Nat → Option (List Nat × List Nat)
  | 0, rest => some ([], rest)
  | n + 1, b => do
    let (w, r) ← readU32LE b
    let (ws, r') ← readU32s n r
    pure (w :: ws, r')

/-- Embeds `ParseBinaryMessage`: reads the 64-byte header
(`encodedBinaryMessage`: 7 fields + 9 reserved uint32 words), then the
`DataLength` float32 payload unless the frame type is `TXChronoMessage` or
the length is zero. -/
def ParseBinaryMessage (b : List Nat) : Option BinaryMessage :=
  match readU32LE b with
  | none => none
  | some (trx, r1) =>
  match readU32LE r1 with
  | none => none
  | some (sampleRate, r2) =>
  match readU32LE r2 with
  | none => none
  | some (format, r3) =>
  match readU32LE r3 with
  | none => none
  | some (codec, r4) =>
  match readU32LE r4 with
  | none => none
  | some (crc, r5) =>
  match readU32LE r5 with
  | none => none
  | some (dataLength, r6) =>
  match readU32LE r6 with
  | none => none
  | some (ty, r7) =>
  match readU32s 9 r7 with
  | none => none
  | some (_, r8) =>
  match
    (if ty ≠ TXChronoMessage ∧ 0 < dataLength then
      (readU32s dataLength r8).map Prod.fst
     else
      some []) with
  | none => none
  | some data =>
    some { TRX := trx, SampleRate := sampleRate, Format := format,
           Codec := codec, CRC := crc, DataLength := dataLength,
           «Type» := ty, Data := data }

/-- Little-endian byte encoding of a 32-bit word, for building concrete
frames in the statements. -/
def u32LE (n : Nat) : List Nat :=
  [n % 256, n / 256 % 256, n / 65536 % 256, n / 16777216 % 256]

/-!  ### Connection / command pipeline  -/

/-- Embeds `command`: a message plus its single-use reply channel; the
`hasReplyChan` flag embeds the source's `cmd.reply != nil` check. -/
structure Command where
  message : Message
  hasReplyChan : Bool
deriving DecidableEq, Repr

/-- The typed errors `ErrTimeout` and `ErrNotConnected`. -/
inductive ClientErr where
  | timeout
  | notConnected
deriving DecidableEq, Repr

/-- Embeds `reply`: the message and error delivered on a command's reply
channel.  `reply{}` (the bare empty success) is
`⟨⟨[], [], false⟩, none⟩`. -/
structure Reply where
  message : Message
  err : Option ClientErr
deriving DecidableEq, Repr

/-- The zero value of `Message` (`Message{}` in Go). -/
def emptyMessage : Message := ⟨[], [], false⟩

/-- The events the in-flight branch of `writeLoop` can select on:
the disconnect channel firing, an outgoing TX-audio frame, an incoming
text message, and the reply-deadline timer firing. -/
inductive WriterEvent where
  | disconnect
  | txAudio (frame : List Nat)
  | incoming (msg : Message)
  | timerFire
deriving DecidableEq, Repr

/-- Embeds one iteration of `writeLoop` while a command is in flight
(`currentCommand != nil`): given the in-flight command and the selected
event, returns the new in-flight slot, the reply delivered to the
command's reply channel (if any), and whether the loop returns. -/
def writeLoopInFlightStep (cur : Command) (ev : WriterEvent) :
    Option Command × Option Reply × Bool :=
  match ev with
  | .disconnect => (some cur, none, true)
  | .txAudio _ => (some cur, none, false)
  | .incoming msg =>
    if msg.IsReplyTo cur.message then (none, some ⟨msg, none⟩, false)
    else (some cur, none, false)
  | .timerFire =>
    if cur.message.responseRequired then
      (none, some ⟨emptyMessage, some .timeout⟩, false)
    else
      (none, some ⟨emptyMessage, none⟩, false)

/-- The client state visible to `send`: `disconnectChan` is `none` when
the channel is nil and `some closed` otherwise; `commands` is the command
queue; `netWrites` records every frame handed to the websocket. -/
structure ClientState where
  disconnectChan : Option Bool
  commands : List Command
  netWrites : List (List Char)
deriving DecidableEq, Repr

/-- Embeds `Client.Connected`. -/
def ClientState.Connected (st : ClientState) : Bool :=
  match st.disconnectChan with
  | none => false
  | some isClosed => !isClosed

/-- The outcome of `Client.send` as observable by the caller before any
reply arrives. -/
inductive SendOutcome where
  | notConnectedErr
  | enqueued (c : Command)
deriving DecidableEq, Repr

/-- Embeds `Client.send(message)` up to the blocking read of the reply
channel: the not-connected short circuit, and otherwise the enqueue of the
command (with a fresh, non-nil reply channel) on the command queue. -/
def ClientState.send (st : ClientState) (message : Message) :
    SendOutcome × ClientState :=
  if !st.Connected then (.notConnectedErr, st)
  else
    let c : Command := ⟨message, true⟩
    (.enqueued c, { st with commands := st.commands ++ [c] })

/-- The per-character substitution performed by `escapeCWText`, as stated
by the specification. -/
def cwSubstChar (c : Char) : Char :=
  if c = ':' then '^' else if c = ',' then '~' else if c = ';' then '*' else c

/-- The lower-case subset of the name character class. -/
def isLowerNameChar (c : Char) : Bool :=
  ('a' ≤ c && c ≤ 'z') || c = '_'

/-- The encoding of the argument tail: every further argument is preceded
by a comma. -/
def joinArgs (as : List (List Char)) : List Char :=
  as.flatMap fun a => ',' :: a

/-- Follows the words of the specification: a valid args submatch is a
comma-separated sequence of non-empty runs over the argument character
class. -/
def validArgsStr (t : List Char) : Bool :=
  (t.splitOn ',').all fun a => !a.isEmpty && a.all isArgChar

/-- Follows the words of the specification: `t` matches the grammar
`name[:arg1,arg2,...];` exactly (name = maximal non-empty run of name
characters, then either a bare `;` or `:` followed by valid args and a
final `;`). -/
def matchesGrammar (t : List Char) : Bool :=
  let nm := t.takeWhile isNameChar
  let rest := t.dropWhile isNameChar
  !nm.isEmpty &&
    (rest == [';'] ||
      (match rest with
       | [] => false
       | c :: rest' =>
         c = ':' && !rest'.isEmpty && rest'.getLast? == some ';'
           && validArgsStr rest'.dropLast))

/-- The message a grammar match denotes, per the specification: the
lower-cased name and the args split on commas. -/
def messageOfGrammar (t : List Char) : Message :=
  { name := (t.takeWhile isNameChar).map Char.toLower,
    args :=
      match t.dropWhile isNameChar with
      | [] => []
      | c :: rest' => if c = ':' then rest'.dropLast.splitOn ',' else [],
    responseRequired := false }

/-!  ## Helper lemmas  -/

theorem replaceAllChar_chain (t : List Char) :
    replaceAllChar (replaceAllChar (replaceAllChar t ':' '^') ',' '~') ';' '*'
      = t.map cwSubstChar := by
  simp only [replaceAllChar, List.map_map]
  refine List.map_congr_left fun c _ => ?_
  simp only [Function.comp]
  by_cases h1 : c = ':'
  · subst h1; rfl
  by_cases h2 : c = ','
  · subst h2; rfl
  by_cases h3 : c = ';'
  · subst h3; rfl
  simp [cwSubstChar, h1, h2, h3]

theorem intercalate_cons₂ {α : Type} (s : α) (a b : List α) (t : List (List α)) :
    List.intercalate [s] (a :: b :: t) = a ++ s :: List.intercalate [s] (b :: t) := by
  simp [List.intercalate, List.intersperse]

theorem intercalate_append_of_ne_nil {α : Type} (s : α) :
    ∀ (xs ys : List (List α)), xs ≠ [] → ys ≠ [] →
      List.intercalate [s] (xs ++ ys)
        = List.intercalate [s] xs ++ s :: List.intercalate [s] ys
  | [], _, hx, _ => absurd rfl hx
  | [a], c :: t, _, _ => by
    show List.intercalate [s] (a :: c :: t) = _
    rw [intercalate_cons₂]
    simp [List.intercalate, List.intersperse]
  | a :: x :: xs, ys, _, hy => by
    have ih : List.intercalate [s] (x :: (xs ++ ys))
        = List.intercalate [s] (x :: xs) ++ s :: List.intercalate [s] ys :=
      intercalate_append_of_ne_nil s (x :: xs) ys (by simp) hy
    show List.intercalate [s] (a :: x :: (xs ++ ys)) = _
    rw [intercalate_cons₂ s a x (xs ++ ys), ih, intercalate_cons₂ s a x xs]
    simp [List.append_assoc]

theorem readU32LE_u32LE (n : Nat) (hn : n < 2 ^ 32) (rest : List Nat) :
    readU32LE (u32LE n ++ rest) = some (n, rest) := by
  simp only [u32LE, List.cons_append, List.nil_append, readU32LE,
    Option.some.injEq, Prod.mk.injEq]
  exact ⟨by omega, trivial⟩

theorem readU32s_consumes (n : Nat) : ∀ (b : List Nat), 4 * n ≤ b.length →
    ∃ ws, readU32s n b = some (ws, b.drop (4 * n)) := by
  induction n with
  | zero => intro b _; exact ⟨[], rfl⟩
  | succ k ih =>
    intro b hb
    match b, hb with
    | b0 :: b1 :: b2 :: b3 :: rest, hb =>
      have hr : 4 * k ≤ rest.length := by
        simp only [List.length_cons] at hb; omega
      obtain ⟨ws, hws⟩ := ih rest hr
      refine ⟨(b0 + 256 * (b1 + 256 * (b2 + 256 * b3))) :: ws, ?_⟩
      have hd : (b0 :: b1 :: b2 :: b3 :: rest).drop (4 * (k + 1)) = rest.drop (4 * k) := by
        rw [Nat.mul_succ, Nat.add_comm, ← List.drop_drop]
        rfl
      rw [hd]
      simp [readU32s, readU32LE, hws]

theorem readU32s_skip (rs tail : List Nat) (n : Nat) (h : rs.length = 4 * n) :
    ∃ ws, readU32s n (rs ++ tail) = some (ws, tail) := by
  have hle : 4 * n ≤ (rs ++ tail).length := by
    simp [List.length_append, h]
  obtain ⟨ws, hws⟩ := readU32s_consumes n (rs ++ tail) hle
  rw [List.drop_append_of_le_length (by omega), List.drop_of_length_le (by omega),
    List.nil_append] at hws
  exact ⟨ws, hws⟩

theorem readU32s_encoded : ∀ (ws : List Nat), (∀ w ∈ ws, w < 2 ^ 32) → ∀ rest,
    readU32s ws.length (ws.flatMap u32LE ++ rest) = some (ws, rest) := by
  intro ws
  induction ws with
  | nil => intro _ rest; rfl
  | cons w t ih =>
    intro hw rest
    have hwlt : w < 2 ^ 32 := hw w (by simp)
    have hts : ∀ x ∈ t, x < 2 ^ 32 := fun x hx => hw x (by simp [hx])
    show readU32s (t.length + 1) ((u32LE w ++ t.flatMap u32LE) ++ rest) = _
    rw [List.append_assoc]
    simp [readU32s, readU32LE_u32LE w hwlt, ih hts rest]

theorem Write_no_wrap {α : Type} (r w : Nat) (content xs : List α)
    (h : w + xs.length < content.length) :
    sampleBuffer.Write ⟨r, w, content⟩ xs =
      ⟨if w < r ∧ r ≤ w + xs.length then (w + xs.length + 1) % content.length else r,
       w + xs.length,
       content.take w ++ xs ++ content.drop (w + xs.length)⟩ := by
  simp only [sampleBuffer.Write, goCopy, goSlice]
  rw [if_neg (by omega), if_neg (by omega), Nat.mod_eq_of_lt (by omega),
    min_self, Nat.min_eq_right (by omega), List.take_length, List.append_assoc]

theorem goCopy_exact {α : Type} (dst : List α) (lo : Nat) (src : List α) (hi : Nat)
    (h : lo + src.length ≤ dst.length) (hhi : lo + src.length ≤ hi) :
    goCopy dst lo hi src = dst.take lo ++ src ++ dst.drop (lo + src.length) := by
  have hn : min (min (hi - lo) (dst.length - lo)) src.length = src.length := by omega
  simp only [goCopy]
  rw [hn, List.take_length]

theorem Write_wrap {α : Type} (r w : Nat) (content xs : List α)
    (h1 : xs.length ≤ content.length) (h2 : content.length ≤ w + xs.length)
    (hw : w < content.length) :
    sampleBuffer.Write ⟨r, w, content⟩ xs =
      ⟨if r ≤ w + xs.length - content.length
        then (w + xs.length - content.length + 1) % content.length else r,
       w + xs.length - content.length,
       xs.drop (content.length - w)
         ++ ((content.take w).drop (w + xs.length - content.length)
              ++ xs.take (content.length - w))⟩ := by
  have hmod : (w + xs.length) % content.length = w + xs.length - content.length := by
    rw [Nat.mod_eq_sub_mod h2, Nat.mod_eq_of_lt (by omega)]
  simp only [sampleBuffer.Write, goSlice, List.drop_zero, Nat.sub_zero]
  rw [if_neg (by omega), if_pos (by omega), hmod]
  rw [goCopy_exact content w (xs.take (content.length - w)) content.length
    (by simp only [List.length_take]; omega) (by simp only [List.length_take]; omega)]
  rw [show (xs.take (content.length - w)).length = content.length - w by
    simp only [List.length_take]; omega]
  rw [show w + (content.length - w) = content.length by omega,
    List.drop_length, List.append_nil]
  rw [show (xs.drop (content.length - w)).take (xs.length - (content.length - w))
      = xs.drop (content.length - w) from
    List.take_of_length_le (by simp only [List.length_drop]; omega)]
  rw [goCopy_exact (content.take w ++ xs.take (content.length - w)) 0
    (xs.drop (content.length - w)) content.length
    (by simp only [List.length_append, List.length_take, List.length_drop]; omega)
    (by simp only [List.length_drop]; omega)]
  rw [List.take_zero, List.nil_append, Nat.zero_add, List.length_drop]
  rw [show xs.length - (content.length - w) = w + xs.length - content.length by omega]
  rw [List.drop_append_eq_append_drop]
  rw [show (content.take w).length = w by simp only [List.length_take]; omega]
  rw [show w + xs.length - content.length - w = 0 by omega, List.drop_zero]

theorem Write_overflow {α : Type} (r w : Nat) (content xs : List α)
    (h : content.length < xs.length) (hw : w < content.length) :
    sampleBuffer.Write ⟨r, w, content⟩ xs =
      ⟨((w + xs.length) % content.length + 1) % content.length,
       (w + xs.length) % content.length,
       xs.drop (xs.length - (w + xs.length) % content.length)
         ++ (xs.drop (xs.length - content.length)).take
              (content.length - (w + xs.length) % content.length)⟩ := by
  have hnwlt : (w + xs.length) % content.length < content.length :=
    Nat.mod_lt _ (by omega)
  simp only [sampleBuffer.Write, goSlice]
  rw [if_pos (by omega)]
  set nw := (w + xs.length) % content.length with hnw
  rw [show (xs.drop (xs.length - nw)).take (xs.length - (xs.length - nw))
      = xs.drop (xs.length - nw) from
    List.take_of_length_le (by simp only [List.length_drop]; omega)]
  rw [goCopy_exact content 0 (xs.drop (xs.length - nw)) nw
    (by simp only [List.length_drop]; omega)
    (by simp only [List.length_drop]; omega)]
  rw [List.take_zero, List.nil_append, Nat.zero_add,
    show (xs.drop (xs.length - nw)).length = nw by
      simp only [List.length_drop]; omega]
  rw [show xs.length - nw - (content.length - nw) = xs.length - content.length
    by omega]
  rw [show xs.length - nw - (xs.length - content.length) = content.length - nw
    by omega]
  rw [goCopy_exact (xs.drop (xs.length - nw) ++ content.drop nw) nw
    ((xs.drop (xs.length - content.length)).take (content.length - nw))
    content.length
    (by simp only [List.length_append, List.length_drop, List.length_take]; omega)
    (by simp only [List.length_take, List.length_drop]; omega)]
  rw [show (xs.drop (xs.length - nw) ++ content.drop nw).take nw
      = xs.drop (xs.length - nw) by
    rw [List.take_append_of_le_length (by simp only [List.length_drop]; omega)]
    exact List.take_of_length_le (by simp only [List.length_drop]; omega)]
  rw [show ((xs.drop (xs.length - content.length)).take (content.length - nw)).length
      = content.length - nw by
    simp only [List.length_take, List.length_drop]; omega]
  rw [show (xs.drop (xs.length - nw) ++ content.drop nw).drop
        (nw + (content.length - nw)) = ([] : List α) from
    List.drop_of_length_le
      (by simp only [List.length_append, List.length_drop]; omega)]
  rw [List.append_nil]


/-!  ## Claims  -/

/-- C9: `escapeCWText` replaces every `:` by `^`, every `,` by `~`, every
`;` by `*`, maps the empty string to `_`, and leaves all other characters
unchanged. -/
theorem escapeCWText_substitution (s : List Char) :
    escapeCWText s = if s = [] then ['_'] else s.map cwSubstChar := by
  by_cases hs : s = []
  · subst hs; rfl
  · have h3 := replaceAllChar_chain s
    have hne : s.map cwSubstChar ≠ [] := by
      simpa using hs
    simp only [escapeCWText, h3, hne, if_neg, hs]


/-- C4: round trip — writing `N ≤ capacity` samples into an empty buffer
(read = write = p, at any cursor position) and then reading `N` samples
returns exactly those samples in order. -/
theorem buffer_roundtrip {α : Type} (C p : Nat) (content xs : List α)
    (_hC : 1 ≤ C) (hp : p ≤ C) (hlen : content.length = C + 1) (hN : xs.length ≤ C) :
    ((sampleBuffer.Write ⟨p, p, content⟩ xs).Read xs.length).1 = xs := by
  by_cases hcase : content.length ≤ p + xs.length
  · rw [Write_wrap p p content xs (by omega) hcase (by omega)]
    rw [if_neg (show ¬(p ≤ p + xs.length - content.length) by omega)]
    set S := xs.drop (content.length - p)
      ++ ((content.take p).drop (p + xs.length - content.length)
           ++ xs.take (content.length - p)) with hSdef
    have hS : S.length = content.length := by
      simp only [hSdef, List.length_append, List.length_drop, List.length_take]
      omega
    have hLen : sampleBuffer.Length ⟨p, p + xs.length - content.length, S⟩
        = xs.length := by
      simp only [sampleBuffer.Length, hS]
      split_ifs <;> omega
    have hXlen : (xs.drop (content.length - p)).length
        = p + xs.length - content.length := by
      simp only [List.length_drop]; omega
    have hXY : (xs.drop (content.length - p)
        ++ (content.take p).drop (p + xs.length - content.length)).length = p := by
      simp only [List.length_append, List.length_drop, List.length_take]; omega
    have e1 : (S.drop p).take (content.length - p) = xs.take (content.length - p) := by
      rw [hSdef, ← List.append_assoc, List.drop_left' hXY]
      exact List.take_of_length_le (by simp only [List.length_take]; omega)
    have e2 : S.take (p + xs.length - content.length)
        = xs.drop (content.length - p) := by
      rw [hSdef, List.take_append_of_le_length (le_of_eq hXlen.symm)]
      exact List.take_of_length_le (le_of_eq hXlen)
    simp only [sampleBuffer.Read, hLen, goSlice, min_self, Nat.sub_zero,
      List.drop_zero]
    rw [if_neg (show ¬(p + xs.length < S.length) by rw [hS]; omega)]
    rw [hS]
    rw [show xs.length - (content.length - p) = p + xs.length - content.length
      by omega]
    rw [e1, e2]
    exact List.take_append_drop _ xs
  · rw [Write_no_wrap p p content xs (by omega), if_neg (by simp)]
    set A := content.take p ++ xs ++ content.drop (p + xs.length) with hAdef
    have hA : A.length = content.length := by
      simp only [hAdef, List.length_append, List.length_take, List.length_drop]
      omega
    have hLen : sampleBuffer.Length ⟨p, p + xs.length, A⟩ = xs.length := by
      simp only [sampleBuffer.Length, hA]
      split_ifs <;> omega
    have e1 : (A.drop p).take (p + xs.length - p) = xs := by
      rw [show p + xs.length - p = xs.length by omega]
      rw [hAdef, List.append_assoc,
        List.drop_left' (show (content.take p).length = p by
          simp only [List.length_take]; omega)]
      rw [List.take_append_of_le_length (le_refl xs.length), List.take_length]
    simp only [sampleBuffer.Read, hLen, goSlice, min_self]
    rw [if_pos (show p + xs.length < A.length by rw [hA]; omega)]
    exact e1

/-- Witness for C4 at capacity 3, cursor 2, batch `[1, 2]`. -/
theorem buffer_roundtrip_witness :
    (1 ≤ 3 ∧ 2 ≤ 3 ∧ ([0, 0, 0, 0] : List Nat).length = 3 + 1
      ∧ ([1, 2] : List Nat).length ≤ 3)
    ∧ ((sampleBuffer.Write ⟨2, 2, ([0, 0, 0, 0] : List Nat)⟩ [1, 2]).Read
        ([1, 2] : List Nat).length).1 = [1, 2] :=
  ⟨by decide,
   buffer_roundtrip 3 2 [0, 0, 0, 0] [1, 2] (by decide) (by decide) (by decide)
     (by decide)⟩

/-- Counterexample to C3 as stated: a freshly created capacity-2 buffer,
after the public-API history `Write [1,2,3]; Read 1`, is in state
(read = 2, write = 0); a further single `Write [4,5,6]` — a batch of 3,
larger than the capacity 2 — leaves `Length() = 1` rather than the
capacity, because the `newWrite >= b.read` overflow test misses the case
where the whole slice is overwritten while the cursors wrap. -/
theorem buffer_overflow_claim_cex :
    ((((newSampleBuffer Nat 2).Write [1, 2, 3]).Read 1).2.Write [4, 5, 6]).Length
      ≠ 2 := by decide

/-- C3 (amended): a single `Write` whose batch is larger than capacity+1
(strictly more than `len(samples)` elements) leaves the buffer holding
exactly the last `capacity` samples of the batch in order: `Length()`
equals capacity, reading capacity samples returns the batch's last
capacity elements, and the read cursor stays in range.  A batch of exactly
capacity+1 samples can violate this when the write cursor is strictly
behind the read cursor (see the counterexample). -/
theorem buffer_overflow_retains_last {α : Type} (r w : Nat) (content xs : List α)
    (_hr : r < content.length) (hw : w < content.length)
    (hL : 2 ≤ content.length) (hov : content.length < xs.length) :
    sampleBuffer.Length (sampleBuffer.Write ⟨r, w, content⟩ xs)
        = content.length - 1
    ∧ ((sampleBuffer.Write ⟨r, w, content⟩ xs).Read (content.length - 1)).1
        = xs.drop (xs.length - (content.length - 1))
    ∧ (sampleBuffer.Write ⟨r, w, content⟩ xs).read < content.length := by
  have hnwlt : (w + xs.length) % content.length < content.length :=
    Nat.mod_lt _ (by omega)
  rw [Write_overflow r w content xs hov hw]
  set nw := (w + xs.length) % content.length with hnw
  set X := xs.drop (xs.length - nw) with hXdef
  set Y := (xs.drop (xs.length - content.length)).take (content.length - nw)
    with hYdef
  have hX : X.length = nw := by
    rw [hXdef, List.length_drop]; omega
  have hY : Y.length = content.length - nw := by
    rw [hYdef, List.length_take, List.length_drop]; omega
  have hS : (X ++ Y).length = content.length := by
    rw [List.length_append, hX, hY]; omega
  have e_take_nw : (X ++ Y).take nw = X := by
    rw [List.take_append_of_le_length (le_of_eq hX.symm)]
    exact List.take_of_length_le (le_of_eq hX)
  by_cases hcase : nw + 1 < content.length
  · -- the read cursor does not wrap
    have hmod : (nw + 1) % content.length = nw + 1 := Nat.mod_eq_of_lt hcase
    rw [hmod]
    have hLen : sampleBuffer.Length ⟨nw + 1, nw, X ++ Y⟩ = content.length - 1 := by
      simp only [sampleBuffer.Length, hS]
      split_ifs <;> omega
    refine ⟨hLen, ?_, by show nw + 1 < content.length; omega⟩
    have e_drop1 : (X ++ Y).drop (nw + 1) = Y.drop 1 := by
      rw [List.drop_append_eq_append_drop, hX,
        show nw + 1 - nw = 1 by omega,
        List.drop_of_length_le (show X.length ≤ nw + 1 by rw [hX]; omega),
        List.nil_append]
    have e_drop2 : Y.drop 1
        = (xs.drop (xs.length - content.length + 1)).take (content.length - nw - 1) := by
      rw [hYdef, List.drop_take, List.drop_drop]
    simp only [sampleBuffer.Read, hLen, goSlice, min_self, Nat.sub_zero,
      List.drop_zero]
    rw [if_neg (show ¬(nw + 1 + (content.length - 1) < (X ++ Y).length) by
      rw [hS]; omega)]
    rw [hS, show content.length - 1 - (content.length - (nw + 1)) = nw by omega]
    rw [e_take_nw]
    rw [show ((X ++ Y).drop (nw + 1)).take (content.length - (nw + 1)) = Y.drop 1 by
      rw [e_drop1]
      exact List.take_of_length_le (by rw [List.length_drop, hY]; omega)]
    have hXsplit : X
        = (xs.drop (xs.length - content.length + 1)).drop (content.length - nw - 1) := by
      rw [hXdef, List.drop_drop,
        show xs.length - content.length + 1 + (content.length - nw - 1)
          = xs.length - nw by omega]
    rw [show xs.length - (content.length - 1) = xs.length - content.length + 1
      by omega]
    rw [e_drop2, hXsplit]
    exact List.take_append_drop (content.length - nw - 1)
      (xs.drop (xs.length - content.length + 1))
  · -- nw = content.length - 1: the read cursor wraps to 0
    have hmod : (nw + 1) % content.length = 0 := by
      rw [show nw + 1 = content.length by omega, Nat.mod_self]
    rw [hmod]
    have hLen : sampleBuffer.Length ⟨0, nw, X ++ Y⟩ = content.length - 1 := by
      simp only [sampleBuffer.Length, hS]
      split_ifs <;> omega
    refine ⟨hLen, ?_, by show (0:Nat) < content.length; omega⟩
    simp only [sampleBuffer.Read, hLen, goSlice, min_self, Nat.sub_zero,
      List.drop_zero, Nat.zero_add]
    rw [if_pos (show content.length - 1 < (X ++ Y).length by rw [hS]; omega)]
    rw [List.take_append_of_le_length (show content.length - 1 ≤ X.length by
      rw [hX]; omega)]
    rw [List.take_of_length_le (show X.length ≤ content.length - 1 by rw [hX]; omega)]
    rw [hXdef, show xs.length - (content.length - 1) = xs.length - nw by omega]

/-- Witness for C3 (amended) at capacity 2 and batch `[1, 2, 3, 4]`. -/
theorem buffer_overflow_retains_last_witness :
    (0 < ([0, 0, 0] : List Nat).length ∧ 0 < ([0, 0, 0] : List Nat).length
      ∧ 2 ≤ ([0, 0, 0] : List Nat).length
      ∧ ([0, 0, 0] : List Nat).length < ([1, 2, 3, 4] : List Nat).length)
    ∧ (sampleBuffer.Length
        (sampleBuffer.Write ⟨0, 0, ([0, 0, 0] : List Nat)⟩ [1, 2, 3, 4])
        = ([0, 0, 0] : List Nat).length - 1
      ∧ ((sampleBuffer.Write ⟨0, 0, ([0, 0, 0] : List Nat)⟩ [1, 2, 3, 4]).Read
          (([0, 0, 0] : List Nat).length - 1)).1
          = ([1, 2, 3, 4] : List Nat).drop
              (([1, 2, 3, 4] : List Nat).length
                - (([0, 0, 0] : List Nat).length - 1))
      ∧ (sampleBuffer.Write ⟨0, 0, ([0, 0, 0] : List Nat)⟩ [1, 2, 3, 4]).read
          < ([0, 0, 0] : List Nat).length) :=
  ⟨by decide,
   buffer_overflow_retains_last 0 0 [0, 0, 0] [1, 2, 3, 4] (by decide) (by decide)
     (by decide) (by decide)⟩

/-- C1: while a command is in flight, the deadline-timer event delivers a
timeout error to the reply channel when the command required a response
and a bare empty success otherwise, and clears the in-flight slot; and
`NewRequestMessage`/`NewCommandMessage` set the response-required flag to
true/false respectively. -/
theorem writeLoop_timeout_reply (cur : Command) :
    writeLoopInFlightStep cur .timerFire =
      (none,
       some (if cur.message.responseRequired then Reply.mk emptyMessage (some .timeout)
             else Reply.mk emptyMessage none),
       false)
    ∧ (∀ n as, (NewRequestMessage n as).responseRequired = true)
    ∧ (∀ n as, (NewCommandMessage n as).responseRequired = false) := by
  refine ⟨?_, fun n as => rfl, fun n as => rfl⟩
  unfold writeLoopInFlightStep
  by_cases h : cur.message.responseRequired <;> simp [h]

/-- C2: a command sent while the client is not connected fails with the
not-connected error and leaves the state (command queue, network writes)
untouched. -/
theorem send_not_connected (st : ClientState) (m : Message)
    (h : st.Connected = false) :
    st.send m = (SendOutcome.notConnectedErr, st) := by
  simp [ClientState.send, h]

/-- Witness for C2 at a concrete disconnected state. -/
theorem send_not_connected_witness :
    ClientState.Connected ⟨some true, [], []⟩ = false
    ∧ ClientState.send ⟨some true, [], []⟩ emptyMessage
        = (SendOutcome.notConnectedErr, ⟨some true, [], []⟩) :=
  ⟨rfl, send_not_connected _ _ rfl⟩

/-- C8: a deliver call for a non-matching transceiver or on a closed
subscription leaves the whole subscription state (in particular its ring
buffer and wake flag) unchanged; delivering after `Close` likewise. -/
theorem rxaudio_ignores_mismatch_and_closed {α : Type} (s : RXAudioStream α)
    (t t' : Int) (r r' : AudioSampleRate) (xs xs' : List α)
    (h : t ≠ s.trx ∨ s.closed = true) :
    s.RXAudio t r xs = s ∧ (s.Close).RXAudio t' r' xs' = s.Close := by
  constructor
  · unfold RXAudioStream.RXAudio
    rcases h with h | h
    · simp [h]
    · by_cases ht : t ≠ s.trx <;> simp [ht, h]
  · have hcl : (s.Close).closed = true := by
      unfold RXAudioStream.Close
      by_cases hc : s.closed <;> simp [hc]
    unfold RXAudioStream.RXAudio
    by_cases ht : t' ≠ (s.Close).trx <;> simp [ht, hcl]

/-- Witness for C8: a concrete subscription on transceiver 0 ignores a
frame delivered for transceiver 1. -/
theorem rxaudio_ignores_witness :
    ((1 : Int) ≠ (⟨0, 48000, false, ⟨0, 0, [0, 0]⟩, false⟩ : RXAudioStream Nat).trx
      ∨ (⟨0, 48000, false, ⟨0, 0, [0, 0]⟩, false⟩ : RXAudioStream Nat).closed = true)
    ∧ (⟨0, 48000, false, ⟨0, 0, [0, 0]⟩, false⟩ : RXAudioStream Nat).RXAudio 1 48000 [5]
        = ⟨0, 48000, false, ⟨0, 0, [0, 0]⟩, false⟩ :=
  ⟨Or.inl (by decide),
   (rxaudio_ignores_mismatch_and_closed _ 1 0 48000 48000 [5] []
     (Or.inl (by decide))).1⟩

/-- The counterexample to C6: the reply `name:0,123;` is accepted as a
reply to the no-argument command `na;`, whose name `na` differs from
`name` — the textual match only requires `na` to be a string prefix of
the reply's wire form. -/
theorem isReplyTo_different_name_cex :
    Message.IsReplyTo ⟨['n', 'a', 'm', 'e'], [['0'], ['1', '2', '3']], false⟩
      ⟨['n', 'a'], [], false⟩ = true := by decide

/-- C6 (amended): `IsReplyTo` accepts whenever the command's serialization
minus its trailing `;` is a string prefix of the reply's serialization.
Echoing the command's name and argument-list prefix is sufficient (in
particular `name:0,123;` replies to `name:0;` and not to `name:1;`), but
the match is purely textual, so a command with a different name may also
be accepted (see the counterexample). -/
theorem isReplyTo_textual_match (m o : Message) (hname : m.name = o.name)
    (ext : List (List Char)) (hargs : m.args = o.args ++ ext) :
    m.IsReplyTo o = true
    ∧ Message.IsReplyTo ⟨['n', 'a', 'm', 'e'], [['0'], ['1', '2', '3']], false⟩
        ⟨['n', 'a', 'm', 'e'], [['0']], false⟩ = true
    ∧ Message.IsReplyTo ⟨['n', 'a', 'm', 'e'], [['0'], ['1', '2', '3']], false⟩
        ⟨['n', 'a', 'm', 'e'], [['1']], false⟩ = false := by
  refine ⟨?_, by decide, by decide⟩
  classical
  set co : List Char :=
    (if o.args = [] then o.name
     else o.name ++ ':' :: List.intercalate [','] o.args) with hco
  have hoS : o.String = co ++ [';'] := by
    unfold Message.String
    by_cases h : o.args = [] <;> simp [hco, h]
  have hmS : ∃ rest, m.String = co ++ rest := by
    rcases ho : o.args with _ | ⟨a, as⟩
    · have hco' : co = o.name := by rw [hco, ho]; simp
      by_cases hm : m.args = []
      · exact ⟨[';'], by unfold Message.String; rw [if_pos hm, hname, hco']⟩
      · exact ⟨':' :: List.intercalate [','] m.args ++ [';'],
          by
            unfold Message.String
            rw [if_neg hm, hname, hco']
            simp [List.append_assoc]⟩
    · have hone : o.args ≠ [] := by rw [ho]; simp
      have hma : m.args ≠ [] := by
        rw [hargs, ho]; simp
      have hco' : co = o.name ++ ':' :: List.intercalate [','] o.args := by
        rw [hco, if_neg hone]
      rcases he : ext with _ | ⟨e, es⟩
      · refine ⟨[';'], ?_⟩
        unfold Message.String
        rw [if_neg hma, hargs, he, List.append_nil, hname, hco']
        simp [List.append_assoc]
      · have hene : ext ≠ [] := by rw [he]; simp
        refine ⟨',' :: List.intercalate [','] ext ++ [';'], ?_⟩
        unfold Message.String
        rw [if_neg hma, hargs,
          intercalate_append_of_ne_nil ',' o.args ext hone hene, hname, hco']
        simp [List.append_assoc]
  rcases hmS with ⟨rest, hmS⟩
  simp only [Message.IsReplyTo]
  rw [decide_eq_true_eq, hoS, hmS]
  have h1 : (co ++ [';']).length - 1 = co.length := by simp
  rw [h1, List.take_left, List.take_left]

/-- C7: a binary frame whose type field is `TXChronoMessage` parses with
an empty payload no matter what the count field declares (the count field
itself is preserved in `DataLength`); a frame of any other type with a
positive count parses its `count` little-endian 32-bit payload words. -/
theorem parseBinaryMessage_chrono_and_payload
    (trx rate fmt codec crc cnt ty : Nat) (rs junk : List Nat)
    (samples : List Nat)
    (htrx : trx < 2 ^ 32) (hrate : rate < 2 ^ 32) (hfmt : fmt < 2 ^ 32)
    (hcodec : codec < 2 ^ 32) (hcrc : crc < 2 ^ 32) (hcnt : cnt < 2 ^ 32)
    (hty : ty < 2 ^ 32) (hrs : rs.length = 36) (hsm : ∀ w ∈ samples, w < 2 ^ 32) :
    ParseBinaryMessage (u32LE trx ++ (u32LE rate ++ (u32LE fmt ++ (u32LE codec ++
        (u32LE crc ++ (u32LE cnt ++ (u32LE TXChronoMessage ++ (rs ++ junk))))))))
      = some ⟨trx, rate, fmt, codec, crc, cnt, TXChronoMessage, []⟩
    ∧ (ty ≠ TXChronoMessage → samples.length = cnt → 0 < cnt →
       ParseBinaryMessage (u32LE trx ++ (u32LE rate ++ (u32LE fmt ++ (u32LE codec ++
           (u32LE crc ++ (u32LE cnt ++ (u32LE ty ++ (rs ++ (samples.flatMap u32LE ++ junk)))))))))
         = some ⟨trx, rate, fmt, codec, crc, cnt, ty, samples⟩) := by
  have hchrono : TXChronoMessage < 2 ^ 32 := by norm_num [TXChronoMessage]
  constructor
  · obtain ⟨ws, hws⟩ := readU32s_skip rs junk 9 (by omega)
    simp [ParseBinaryMessage, readU32LE_u32LE _ htrx, readU32LE_u32LE _ hrate,
      readU32LE_u32LE _ hfmt, readU32LE_u32LE _ hcodec, readU32LE_u32LE _ hcrc,
      readU32LE_u32LE _ hcnt, readU32LE_u32LE _ hchrono, hws]
  · intro hne hlen hpos
    obtain ⟨ws, hws⟩ := readU32s_skip rs (samples.flatMap u32LE ++ junk) 9 (by omega)
    have henc := readU32s_encoded samples hsm junk
    rw [hlen] at henc
    simp [ParseBinaryMessage, readU32LE_u32LE _ htrx, readU32LE_u32LE _ hrate,
      readU32LE_u32LE _ hfmt, readU32LE_u32LE _ hcodec, readU32LE_u32LE _ hcrc,
      readU32LE_u32LE _ hcnt, readU32LE_u32LE _ hty, hws, hne, hpos, henc]

/-- Witness for C7 at a concrete chrono frame with count 960 and a
concrete RX-audio frame with two payload words. -/
theorem parseBinaryMessage_witness :
    (List.replicate 36 0).length = 36
    ∧ (∀ w ∈ [7, 9], w < 2 ^ 32)
    ∧ ParseBinaryMessage (u32LE 1 ++ (u32LE 48000 ++ (u32LE 4 ++ (u32LE 0 ++
        (u32LE 0 ++ (u32LE 960 ++ (u32LE TXChronoMessage ++ (List.replicate 36 0 ++ []))))))))
      = some ⟨1, 48000, 4, 0, 0, 960, TXChronoMessage, []⟩
    ∧ ParseBinaryMessage (u32LE 1 ++ (u32LE 48000 ++ (u32LE 4 ++ (u32LE 0 ++
        (u32LE 0 ++ (u32LE 2 ++ (u32LE RXAudioStreamMessage ++
          (List.replicate 36 0 ++ ([7, 9].flatMap u32LE ++ [])))))))))
      = some ⟨1, 48000, 4, 0, 0, 2, RXAudioStreamMessage, [7, 9]⟩ := by
  refine ⟨by decide, by decide, ?_, ?_⟩
  · exact (parseBinaryMessage_chrono_and_payload 1 48000 4 0 0 960 0
      (List.replicate 36 0) [] [] (by decide) (by decide) (by decide) (by decide)
      (by decide) (by decide) (by decide) (by decide) (by decide)).1
  · exact (parseBinaryMessage_chrono_and_payload 1 48000 4 0 0 2 RXAudioStreamMessage
      (List.replicate 36 0) [] [7, 9] (by decide) (by decide) (by decide) (by decide)
      (by decide) (by decide) (by decide) (by decide) (by decide)).2
      (by decide) (by decide) (by decide)

/-- Witness for C6 at the concrete reply `name:0,123;` and command
`name:0;`. -/
theorem isReplyTo_textual_match_witness :
    (⟨['n', 'a', 'm', 'e'], [['0'], ['1', '2', '3']], false⟩ : Message).name
        = (⟨['n', 'a', 'm', 'e'], [['0']], false⟩ : Message).name
    ∧ (⟨['n', 'a', 'm', 'e'], [['0'], ['1', '2', '3']], false⟩ : Message).args
        = (⟨['n', 'a', 'm', 'e'], [['0']], false⟩ : Message).args ++ [['1', '2', '3']]
    ∧ Message.IsReplyTo ⟨['n', 'a', 'm', 'e'], [['0'], ['1', '2', '3']], false⟩
        ⟨['n', 'a', 'm', 'e'], [['0']], false⟩ = true :=
  ⟨rfl, rfl,
   (isReplyTo_textual_match
     ⟨['n', 'a', 'm', 'e'], [['0'], ['1', '2', '3']], false⟩
     ⟨['n', 'a', 'm', 'e'], [['0']], false⟩ rfl [['1', '2', '3']] rfl).1⟩

theorem char_le_toNat {a b : Char} (h : a ≤ b) : a.toNat ≤ b.toNat :=
  h

theorem nameChar_toNat (c : Char) (h : isNameChar c = true) :
    65 ≤ c.toNat ∧ c.toNat ≤ 122 := by
  simp only [isNameChar, Bool.or_eq_true, Bool.and_eq_true, decide_eq_true_eq] at h
  rcases h with (⟨h1, h2⟩ | ⟨h1, h2⟩) | h3
  · exact ⟨char_le_toNat h1, Nat.le_trans (char_le_toNat h2) (by decide)⟩
  · exact ⟨Nat.le_trans (by decide) (char_le_toNat h1), char_le_toNat h2⟩
  · subst h3; decide

theorem nameChar_not_ws (c : Char) (h : isNameChar c = true) :
    c.isWhitespace = false := by
  obtain ⟨h1, _⟩ := nameChar_toNat c h
  simp only [Char.isWhitespace, Bool.or_eq_false_iff, decide_eq_false_iff_not]
  refine ⟨⟨⟨?_, ?_⟩, ?_⟩, ?_⟩ <;> rintro rfl <;> revert h1 <;> decide

theorem lower_isNameChar (c : Char) (h : isLowerNameChar c = true) :
    isNameChar c = true := by
  simp only [isLowerNameChar, Bool.or_eq_true, Bool.and_eq_true,
    decide_eq_true_eq] at h
  simp only [isNameChar, Bool.or_eq_true, Bool.and_eq_true, decide_eq_true_eq]
  tauto

theorem lower_toLower (c : Char) (h : isLowerNameChar c = true) :
    c.toLower = c := by
  simp only [isLowerNameChar, Bool.or_eq_true, Bool.and_eq_true,
    decide_eq_true_eq] at h
  rcases h with ⟨h1, h2⟩ | h3
  · have h97 : 97 ≤ c.toNat := char_le_toNat h1
    unfold Char.toLower
    rw [if_neg]
    rintro ⟨-, hb⟩
    omega
  · subst h3; decide

theorem trimSpace_of_no_ws (s : List Char)
    (h : ∀ c ∈ s, Char.isWhitespace c = false) : trimSpace s = s := by
  have key : ∀ (t : List Char), (∀ c ∈ t, Char.isWhitespace c = false) →
      t.dropWhile Char.isWhitespace = t := by
    intro t ht
    cases t with
    | nil => rfl
    | cons a u =>
      rw [List.dropWhile_cons_of_neg]
      simp [ht a (by simp)]
  unfold trimSpace
  rw [key s h, key s.reverse fun c hc => h c (List.mem_reverse.mp hc),
    List.reverse_reverse]

theorem map_toLower_of_lower (s : List Char)
    (h : ∀ c ∈ s, isLowerNameChar c = true) : s.map Char.toLower = s := by
  rw [List.map_congr_left fun c hc => lower_toLower c (h c hc)]
  exact List.map_id' s

theorem joinArgs_nil : joinArgs [] = [] := rfl

theorem joinArgs_cons (a : List Char) (t : List (List Char)) :
    joinArgs (a :: t) = ',' :: (a ++ joinArgs t) := by
  simp [joinArgs]

theorem intercalate_eq_head_join (a : List Char) (as : List (List Char)) :
    List.intercalate [','] (a :: as) = a ++ joinArgs as := by
  induction as generalizing a with
  | nil => simp [List.intercalate, List.intersperse, joinArgs]
  | cons b t ih =>
    rw [intercalate_cons₂, ih b, joinArgs_cons]

/-- The first characters of `joinArgs as ++ ';' :: q` never belong to the
argument character class. -/
theorem takeWhile_arg_block (a : List Char)
    (ha : ∀ c ∈ a, isArgChar c = true) (as : List (List Char)) (q : List Char) :
    (a ++ (joinArgs as ++ ';' :: q)).takeWhile isArgChar = a
    ∧ (a ++ (joinArgs as ++ ';' :: q)).dropWhile isArgChar
        = joinArgs as ++ ';' :: q := by
  have hhead : ∃ d t, joinArgs as ++ ';' :: q = d :: t ∧ isArgChar d = false := by
    cases as with
    | nil => exact ⟨';', q, by simp [joinArgs_nil], by decide⟩
    | cons b t =>
      refine ⟨',', b ++ joinArgs t ++ ';' :: q, ?_, by decide⟩
      rw [joinArgs_cons]
      simp
  obtain ⟨d, t, hdt, hd⟩ := hhead
  rw [hdt, List.takeWhile_append_of_pos ha, List.dropWhile_append_of_pos ha,
    List.takeWhile_cons_of_neg (by simp [hd]),
    List.dropWhile_cons_of_neg (by simp [hd]), List.append_nil]
  exact ⟨rfl, rfl⟩

theorem moreArgs_join (as : List (List Char)) (q : List Char)
    (has : ∀ a ∈ as, a ≠ [] ∧ ∀ c ∈ a, isArgChar c = true) :
    moreArgs (joinArgs as ++ ';' :: q) = (joinArgs as, ';' :: q) := by
  induction as with
  | nil =>
    rw [joinArgs_nil, List.nil_append]
    simp only [moreArgs]
    rw [if_neg (by rintro ⟨hc, -⟩; exact absurd hc (by decide))]
  | cons a t ih =>
    obtain ⟨hane, hac⟩ := has a (by simp)
    have htail : ∀ b ∈ t, b ≠ [] ∧ ∀ c ∈ b, isArgChar c = true :=
      fun b hb => has b (by simp [hb])
    obtain ⟨htw, hdw⟩ := takeWhile_arg_block a hac t q
    rw [joinArgs_cons, List.cons_append, List.append_assoc]
    simp only [moreArgs, htw, hdw, ih htail]
    simp [hane]

theorem matchAt_noargs (name q : List Char) (hname : name ≠ [])
    (hnc : ∀ c ∈ name, isNameChar c = true) :
    matchAt (name ++ ';' :: q) = some (name, []) := by
  have h1 : (name ++ ';' :: q).takeWhile isNameChar = name := by
    rw [List.takeWhile_append_of_pos hnc,
      List.takeWhile_cons_of_neg (by decide), List.append_nil]
  have h2 : (name ++ ';' :: q).dropWhile isNameChar = ';' :: q := by
    rw [List.dropWhile_append_of_pos hnc,
      List.dropWhile_cons_of_neg (by decide)]
  simp only [matchAt, h1, h2]
  rw [if_neg hname]
  simp

theorem matchAt_args (name a : List Char) (as : List (List Char)) (q : List Char)
    (hname : name ≠ []) (hnc : ∀ c ∈ name, isNameChar c = true)
    (hargs : ∀ x ∈ a :: as, x ≠ [] ∧ ∀ c ∈ x, isArgChar c = true) :
    matchAt (name ++ ':' :: (a ++ (joinArgs as ++ ';' :: q)))
      = some (name, a ++ joinArgs as) := by
  obtain ⟨hane, hac⟩ := hargs a (by simp)
  have htail : ∀ b ∈ as, b ≠ [] ∧ ∀ c ∈ b, isArgChar c = true :=
    fun b hb => hargs b (by simp [hb])
  have h1 : (name ++ ':' :: (a ++ (joinArgs as ++ ';' :: q))).takeWhile isNameChar
      = name := by
    rw [List.takeWhile_append_of_pos hnc,
      List.takeWhile_cons_of_neg (by decide), List.append_nil]
  have h2 : (name ++ ':' :: (a ++ (joinArgs as ++ ';' :: q))).dropWhile isNameChar
      = ':' :: (a ++ (joinArgs as ++ ';' :: q)) := by
    rw [List.dropWhile_append_of_pos hnc,
      List.dropWhile_cons_of_neg (by decide)]
  obtain ⟨htw, hdw⟩ := takeWhile_arg_block a hac as q
  simp only [matchAt, h1, h2, htw, hdw, moreArgs_join as q htail]
  rw [if_neg hname, if_neg hane]
  simp

theorem findMessage_of_matchAt (s : List Char) (r : List Char × List Char)
    (hs : matchAt s = some r) : findMessage s = some r := by
  cases s with
  | nil =>
    rw [show matchAt ([] : List Char) = none from rfl] at hs
    exact absurd hs (by simp)
  | cons c rest =>
    rw [findMessage, hs]

theorem comma_not_mem_of_arg (a : List Char) (h : ∀ c ∈ a, isArgChar c = true) :
    ',' ∉ a := fun hm => absurd (h ',' hm) (by decide)

/-- Counterexample to C5 as stated: the round trip loses the
response-required flag — parsing the wire form of a request message yields
a message whose flag is false. -/
theorem parse_string_roundtrip_cex :
    ParseTextMessage (Message.String ⟨['s', 't', 'a', 'r', 't'], [], true⟩)
      ≠ some ⟨['s', 't', 'a', 'r', 't'], [], true⟩ := by decide

/-- C5 (amended): for a message whose name is a non-empty string of
lower-case letters/underscores and whose arguments are non-empty strings
over the argument character class, parsing the serialized wire form
recovers the name and the argument list exactly, with the
response-required flag always cleared to false; hence
`Parse(Serialize(m)) = m` holds exactly for messages that do not require a
response. -/
theorem parse_string_roundtrip (m : Message)
    (h1 : m.name ≠ []) (h2 : ∀ c ∈ m.name, isLowerNameChar c = true)
    (h3 : ∀ a ∈ m.args, a ≠ [] ∧ ∀ c ∈ a, isArgChar c = true) :
    ParseTextMessage m.String
      = some { name := m.name, args := m.args, responseRequired := false }
    ∧ (m.responseRequired = false → ParseTextMessage m.String = some m) := by
  have hnc : ∀ c ∈ m.name, isNameChar c = true :=
    fun c hc => lower_isNameChar c (h2 c hc)
  have htrim : trimSpace m.name = m.name :=
    trimSpace_of_no_ws m.name fun c hc => nameChar_not_ws c (hnc c hc)
  have hlow : (m.name.map Char.toLower) = m.name := map_toLower_of_lower m.name h2
  have main : ParseTextMessage m.String
      = some { name := m.name, args := m.args, responseRequired := false } := by
    rcases hargs : m.args with _ | ⟨a, as⟩
    · have hw : m.String = m.name ++ ';' :: ([] : List Char) := by
        unfold Message.String
        rw [if_pos hargs]
      have hfind := findMessage_of_matchAt _ _
        (matchAt_noargs m.name [] h1 hnc)
      rw [hw]
      simp only [ParseTextMessage, hfind, htrim, hlow]
      simp
    · have hval : ∀ x ∈ a :: as, x ≠ [] ∧ ∀ c ∈ x, isArgChar c = true := by
        rw [← hargs]; exact h3
      have hw : m.String
          = m.name ++ ':' :: (a ++ (joinArgs as ++ ';' :: ([] : List Char))) := by
        unfold Message.String
        rw [if_neg (by rw [hargs]; simp), hargs, intercalate_eq_head_join]
        simp [List.append_assoc]
      have hfind := findMessage_of_matchAt _ _
        (matchAt_args m.name a as [] h1 hnc hval)
      rw [hw]
      simp only [ParseTextMessage, hfind, htrim, hlow]
      have hne : a ++ joinArgs as ≠ [] := by
        have := (hval a (by simp)).1
        cases a with
        | nil => exact absurd rfl this
        | cons c u => simp
      rw [if_neg hne, ← intercalate_eq_head_join,
        List.splitOn_intercalate (a :: as) ','
          (fun l hl => comma_not_mem_of_arg l (hval l hl).2) (by simp)]
  refine ⟨main, fun hrr => ?_⟩
  rw [main]
  rcases m with ⟨n, ar, rr⟩
  simp only at hrr
  rw [hrr]

/-- Witness for C5 (amended) at the message `dds:0,123;`. -/
theorem parse_string_roundtrip_witness :
    ((⟨['d', 'd', 's'], [['0'], ['1', '2', '3']], false⟩ : Message).name ≠ []
      ∧ (∀ c ∈ (⟨['d', 'd', 's'], [['0'], ['1', '2', '3']], false⟩ : Message).name,
          isLowerNameChar c = true)
      ∧ (∀ a ∈ (⟨['d', 'd', 's'], [['0'], ['1', '2', '3']], false⟩ : Message).args,
          a ≠ [] ∧ ∀ c ∈ a, isArgChar c = true))
    ∧ ParseTextMessage
        (Message.String ⟨['d', 'd', 's'], [['0'], ['1', '2', '3']], false⟩)
      = some ⟨['d', 'd', 's'], [['0'], ['1', '2', '3']], false⟩ :=
  ⟨⟨by decide, by decide, by decide⟩,
   (parse_string_roundtrip ⟨['d', 'd', 's'], [['0'], ['1', '2', '3']], false⟩
     (by decide) (by decide) (by decide)).2 rfl⟩

theorem moreArgs_sound : ∀ (n : Nat) (v : List Char), v.length ≤ n →
    ∃ as, (moreArgs v).1 = joinArgs as
      ∧ (∀ a ∈ as, a ≠ [] ∧ ∀ c ∈ a, isArgChar c = true)
      ∧ v = (moreArgs v).1 ++ (moreArgs v).2 := by
  intro n
  induction n with
  | zero =>
    intro v hv
    have hvnil : v = [] := List.eq_nil_of_length_eq_zero (Nat.le_zero.mp hv)
    subst hvnil
    have h0 : moreArgs ([] : List Char) = ([], []) := by simp only [moreArgs]
    exact ⟨[], by rw [h0, joinArgs_nil], by simp, by rw [h0]; rfl⟩
  | succ k ih =>
    intro v hv
    match v with
    | [] =>
      have h0 : moreArgs ([] : List Char) = ([], []) := by simp only [moreArgs]
      exact ⟨[], by rw [h0, joinArgs_nil], by simp, by rw [h0]; rfl⟩
    | c :: rest =>
      by_cases hc : c = ',' ∧ rest.takeWhile isArgChar ≠ []
      · have hre : moreArgs (c :: rest)
            = (c :: (rest.takeWhile isArgChar
                      ++ (moreArgs (rest.dropWhile isArgChar)).1),
               (moreArgs (rest.dropWhile isArgChar)).2) := by
          simp only [moreArgs]
          rw [if_pos hc]
          simp
        have hlen : (rest.dropWhile isArgChar).length ≤ k := by
          have hd := (List.dropWhile_sublist (l := rest) isArgChar).length_le
          simp only [List.length_cons] at hv
          omega
        obtain ⟨as, ha1, ha2, ha3⟩ := ih (rest.dropWhile isArgChar) hlen
        refine ⟨rest.takeWhile isArgChar :: as, ?_, ?_, ?_⟩
        · rw [hre, joinArgs_cons, ha1, hc.1]
        · intro a ha
          rcases List.mem_cons.mp ha with rfl | ha
          · exact ⟨hc.2, fun x hx => List.mem_takeWhile_imp hx⟩
          · exact ha2 a ha
        · rw [hre]
          show c :: rest
            = c :: (rest.takeWhile isArgChar
                ++ (moreArgs (rest.dropWhile isArgChar)).1)
              ++ (moreArgs (rest.dropWhile isArgChar)).2
          rw [List.cons_append, List.append_assoc, ← ha3,
            List.takeWhile_append_dropWhile]
      · have hre : moreArgs (c :: rest) = ([], c :: rest) := by
          simp only [moreArgs]
          rw [if_neg hc]
        refine ⟨[], by rw [hre, joinArgs_nil], by simp, ?_⟩
        rw [hre]
        rfl

theorem matchAt_sound (u n a : List Char) (h : matchAt u = some (n, a)) :
    ∃ t q, u = t ++ q ∧ matchesGrammar t = true
      ∧ messageOfGrammar t
          = { name := (trimSpace n).map Char.toLower,
              args := if a = [] then [] else a.splitOn ',',
              responseRequired := false } := by
  simp only [matchAt] at h
  by_cases hn : u.takeWhile isNameChar = []
  · rw [if_pos hn] at h; exact absurd h (by simp)
  rw [if_neg hn] at h
  have hnmc : ∀ x ∈ u.takeWhile isNameChar, isNameChar x = true :=
    fun x hx => List.mem_takeWhile_imp hx
  have htrimid : trimSpace (u.takeWhile isNameChar) = u.takeWhile isNameChar :=
    trimSpace_of_no_ws _ fun x hx => nameChar_not_ws x (hnmc x hx)
  rcases hd : u.dropWhile isNameChar with _ | ⟨c, rest⟩
  · rw [hd] at h; exact absurd h (by simp)
  rw [hd] at h
  simp only [] at h
  have hu : u = u.takeWhile isNameChar ++ c :: rest := by
    rw [← hd, List.takeWhile_append_dropWhile]
  by_cases hc : c = ':'
  · subst hc
    rw [if_pos rfl] at h
    by_cases ha1 : rest.takeWhile isArgChar = []
    · rw [if_pos ha1] at h; exact absurd h (by simp)
    rw [if_neg ha1] at h
    rcases hp2 : (moreArgs (rest.dropWhile isArgChar)).2 with _ | ⟨d, tail⟩
    · rw [hp2] at h; exact absurd h (by simp)
    rw [hp2] at h
    simp only [] at h
    by_cases hdc : d = ';'
    swap
    · rw [if_neg hdc] at h; exact absurd h (by simp)
    subst hdc
    rw [if_pos rfl] at h
    obtain ⟨hn', ha'⟩ : n = u.takeWhile isNameChar
        ∧ a = rest.takeWhile isArgChar ++ (moreArgs (rest.dropWhile isArgChar)).1 := by
      have := Option.some.injEq .. ▸ h
      exact ⟨(Prod.mk.injEq .. ▸ this.symm).1, (Prod.mk.injEq .. ▸ this.symm).2⟩
    obtain ⟨as, hp1, hval, hsplit⟩ :=
      moreArgs_sound (rest.dropWhile isArgChar).length (rest.dropWhile isArgChar)
        (le_refl _)
    have harg1 : ∀ x ∈ rest.takeWhile isArgChar, isArgChar x = true :=
      fun x hx => List.mem_takeWhile_imp hx
    have hvalall : ∀ x ∈ rest.takeWhile isArgChar :: as,
        x ≠ [] ∧ ∀ ch ∈ x, isArgChar ch = true := by
      intro x hx
      rcases List.mem_cons.mp hx with rfl | hx
      · exact ⟨ha1, harg1⟩
      · exact hval x hx
    set A := rest.takeWhile isArgChar ++ joinArgs as with hAdef
    have hsplitA : A.splitOn ',' = rest.takeWhile isArgChar :: as := by
      rw [hAdef, ← intercalate_eq_head_join]
      exact List.splitOn_intercalate _ ','
        (fun l hl => comma_not_mem_of_arg l (hvalall l hl).2) (by simp)
    refine ⟨u.takeWhile isNameChar ++ ':' :: (A ++ [';']), tail, ?_, ?_, ?_⟩
    · have hrest : rest = A ++ ';' :: tail := by
        conv_lhs => rw [← List.takeWhile_append_dropWhile (p := isArgChar) (l := rest)]
        rw [hsplit, hp2, hp1, hAdef]
        simp [List.append_assoc]
      conv_lhs => rw [hu, hrest]
      simp only [List.append_assoc, List.cons_append, List.singleton_append,
        List.nil_append]
    · have h1 : (u.takeWhile isNameChar ++ ':' :: (A ++ [';'])).takeWhile isNameChar
          = u.takeWhile isNameChar := by
        rw [List.takeWhile_append_of_pos hnmc,
          List.takeWhile_cons_of_neg (by decide), List.append_nil]
      have h2 : (u.takeWhile isNameChar ++ ':' :: (A ++ [';'])).dropWhile isNameChar
          = ':' :: (A ++ [';']) := by
        rw [List.dropWhile_append_of_pos hnmc,
          List.dropWhile_cons_of_neg (by decide)]
      simp only [matchesGrammar, h1, h2]
      rw [List.dropLast_concat]
      have hAne : A ≠ [] := by
        rw [hAdef]
        cases hrt : rest.takeWhile isArgChar with
        | nil => exact absurd hrt ha1
        | cons x xs => simp
      have hvA : validArgsStr A = true := by
        unfold validArgsStr
        rw [hsplitA, List.all_eq_true]
        intro x hx
        obtain ⟨hne, hall⟩ := hvalall x hx
        simp only [Bool.and_eq_true, List.all_eq_true]
        exact ⟨by simp [hne], fun ch hch => hall ch hch⟩
      simp [hn, hAne, hvA, List.getLast?_concat]
    · have h1 : (u.takeWhile isNameChar ++ ':' :: (A ++ [';'])).takeWhile isNameChar
          = u.takeWhile isNameChar := by
        rw [List.takeWhile_append_of_pos hnmc,
          List.takeWhile_cons_of_neg (by decide), List.append_nil]
      have h2 : (u.takeWhile isNameChar ++ ':' :: (A ++ [';'])).dropWhile isNameChar
          = ':' :: (A ++ [';']) := by
        rw [List.dropWhile_append_of_pos hnmc,
          List.dropWhile_cons_of_neg (by decide)]
      have hAne : A ≠ [] := by
        rw [hAdef]
        cases hrt : rest.takeWhile isArgChar with
        | nil => exact absurd hrt ha1
        | cons x xs => simp
      simp only [messageOfGrammar, h1, h2, if_pos rfl, List.dropLast_concat]
      rw [hn', htrimid, ha', hp1, ← hAdef, if_neg hAne]
      simp
  · rw [if_neg hc] at h
    by_cases hc2 : c = ';'
    swap
    · rw [if_neg hc2] at h; exact absurd h (by simp)
    subst hc2
    rw [if_pos rfl] at h
    obtain ⟨hn', ha'⟩ : n = u.takeWhile isNameChar ∧ a = [] := by
      have := Option.some.injEq .. ▸ h
      exact ⟨(Prod.mk.injEq .. ▸ this.symm).1, (Prod.mk.injEq .. ▸ this.symm).2⟩
    refine ⟨u.takeWhile isNameChar ++ [';'], rest, ?_, ?_, ?_⟩
    · conv_lhs => rw [hu]
      simp only [List.append_assoc, List.singleton_append]
    · have h1 : (u.takeWhile isNameChar ++ [';']).takeWhile isNameChar
          = u.takeWhile isNameChar := by
        rw [show (u.takeWhile isNameChar ++ [';'])
              = u.takeWhile isNameChar ++ ';' :: [] from rfl,
          List.takeWhile_append_of_pos hnmc,
          List.takeWhile_cons_of_neg (by decide), List.append_nil]
      have h2 : (u.takeWhile isNameChar ++ [';']).dropWhile isNameChar = [';'] := by
        rw [show (u.takeWhile isNameChar ++ [';'])
              = u.takeWhile isNameChar ++ ';' :: [] from rfl,
          List.dropWhile_append_of_pos hnmc,
          List.dropWhile_cons_of_neg (by decide)]
      simp [matchesGrammar, h1, h2, hn]
    · have h1 : (u.takeWhile isNameChar ++ [';']).takeWhile isNameChar
          = u.takeWhile isNameChar := by
        rw [show (u.takeWhile isNameChar ++ [';'])
              = u.takeWhile isNameChar ++ ';' :: [] from rfl,
          List.takeWhile_append_of_pos hnmc,
          List.takeWhile_cons_of_neg (by decide), List.append_nil]
      have h2 : (u.takeWhile isNameChar ++ [';']).dropWhile isNameChar = [';'] := by
        rw [show (u.takeWhile isNameChar ++ [';'])
              = u.takeWhile isNameChar ++ ';' :: [] from rfl,
          List.dropWhile_append_of_pos hnmc,
          List.dropWhile_cons_of_neg (by decide)]
      simp only [messageOfGrammar, h1, h2]
      rw [hn', htrimid, ha', if_pos rfl]
      simp

theorem matchAt_complete (t q : List Char) (hg : matchesGrammar t = true) :
    ∃ r, matchAt (t ++ q) = some r := by
  simp only [matchesGrammar, Bool.and_eq_true, Bool.or_eq_true] at hg
  obtain ⟨hne, hcases⟩ := hg
  have hnm : t.takeWhile isNameChar ≠ [] := by simpa using hne
  have hnc : ∀ x ∈ t.takeWhile isNameChar, isNameChar x = true :=
    fun x hx => List.mem_takeWhile_imp hx
  have ht : t = t.takeWhile isNameChar ++ t.dropWhile isNameChar :=
    (List.takeWhile_append_dropWhile isNameChar t).symm
  rcases hcases with hsemi | hmatch
  · have hrest : t.dropWhile isNameChar = [';'] := by simpa using hsemi
    refine ⟨(t.takeWhile isNameChar, []), ?_⟩
    have heq : t ++ q = t.takeWhile isNameChar ++ ';' :: q := by
      conv_lhs => rw [ht, hrest]
      simp
    rw [heq]
    exact matchAt_noargs _ q hnm hnc
  · rcases hrest : t.dropWhile isNameChar with _ | ⟨c, rest'⟩
    · rw [hrest] at hmatch; simp at hmatch
    rw [hrest] at hmatch
    simp only [] at hmatch
    simp only [Bool.and_eq_true, decide_eq_true_eq, beq_iff_eq] at hmatch
    obtain ⟨⟨⟨hc, hre⟩, hlast⟩, hvA⟩ := hmatch
    subst hc
    have hsplit' : rest'.dropLast ++ [';'] = rest' :=
      List.dropLast_append_getLast? ';' (Option.mem_def.mpr hlast)
    have hinter : List.intercalate [','] (rest'.dropLast.splitOn ',')
        = rest'.dropLast := List.intercalate_splitOn rest'.dropLast ','
    have hvalid : ∀ x ∈ rest'.dropLast.splitOn ',',
        x ≠ [] ∧ ∀ ch ∈ x, isArgChar ch = true := by
      intro x hx
      have hb := List.all_eq_true.mp hvA x hx
      simp only [Bool.and_eq_true, List.all_eq_true, List.isEmpty_eq_false,
        Bool.not_eq_eq_eq_not, Bool.not_true] at hb
      exact ⟨by simpa using hb.1, hb.2⟩
    have hasne : rest'.dropLast.splitOn ',' ≠ [] := by
      simp only [List.splitOn]
      exact List.splitOnP_ne_nil _ _
    rcases hAs : rest'.dropLast.splitOn ',' with _ | ⟨a1, as1⟩
    · exact absurd hAs hasne
    rw [hAs] at hinter hvalid
    refine ⟨(t.takeWhile isNameChar, a1 ++ joinArgs as1), ?_⟩
    have heq : t ++ q
        = t.takeWhile isNameChar ++ ':' :: (a1 ++ (joinArgs as1 ++ ';' :: q)) := by
      conv_lhs => rw [ht, hrest, ← hsplit', ← hinter,
        intercalate_eq_head_join]
      simp [List.append_assoc]
    rw [heq]
    exact matchAt_args _ a1 as1 q hnm hnc hvalid

theorem findMessage_some (s : List Char) (r : List Char × List Char)
    (h : findMessage s = some r) :
    ∃ i, matchAt (s.drop i) = some r ∧ ∀ j, j < i → matchAt (s.drop j) = none := by
  induction s with
  | nil => rw [findMessage] at h; exact absurd h (by simp)
  | cons c rest ih =>
    rw [findMessage] at h
    rcases hm : matchAt (c :: rest) with _ | r'
    · rw [hm] at h
      simp only [] at h
      obtain ⟨i, hi1, hi2⟩ := ih h
      refine ⟨i + 1, by simpa using hi1, ?_⟩
      intro j hj
      cases j with
      | zero => simpa using hm
      | succ k =>
        have := hi2 k (by omega)
        simpa using this
    · rw [hm] at h
      simp only [Option.some.injEq] at h
      subst h
      exact ⟨0, by simpa using hm, fun j hj => absurd hj (by omega)⟩

theorem findMessage_none (s : List Char) (h : findMessage s = none) :
    ∀ i, matchAt (s.drop i) = none := by
  induction s with
  | nil =>
    intro i
    rw [List.drop_nil]
    rfl
  | cons c rest ih =>
    rw [findMessage] at h
    rcases hm : matchAt (c :: rest) with _ | r'
    · rw [hm] at h
      simp only [] at h
      intro i
      cases i with
      | zero => simpa using hm
      | succ k => simpa using ih h k
    · rw [hm] at h
      exact absurd h (by simp)

/-- C10: `ParseTextMessage` is an unanchored search.  Whenever any
contiguous substring of the input matches the grammar
`name[:arg1,...];`, parsing succeeds; and a successful parse always
returns the message denoted by a grammar match starting at the leftmost
possible position, silently skipping the characters before it and
ignoring the characters after it. -/
theorem parseTextMessage_unanchored (s : List Char) :
    (∀ m, ParseTextMessage s = some m →
      ∃ i t q, s.drop i = t ++ q ∧ matchesGrammar t = true
        ∧ m = messageOfGrammar t
        ∧ ∀ j t' q', j < i → s.drop j = t' ++ q' → matchesGrammar t' = false)
    ∧ ((∃ p t q, s = p ++ t ++ q ∧ matchesGrammar t = true) →
        ∃ m, ParseTextMessage s = some m) := by
  constructor
  · intro m hm
    rcases hf : findMessage s with _ | ⟨n, a⟩
    · rw [ParseTextMessage, hf] at hm
      exact absurd hm (by simp)
    have hm' : m = { name := (trimSpace n).map Char.toLower,
                     args := if a = [] then [] else a.splitOn ',',
                     responseRequired := false } := by
      rw [ParseTextMessage, hf] at hm
      simp only [Option.some.injEq] at hm
      exact hm.symm
    obtain ⟨i, hi1, hi2⟩ := findMessage_some s (n, a) hf
    obtain ⟨t, q, htq, hgr, hmsg⟩ := matchAt_sound (s.drop i) n a hi1
    refine ⟨i, t, q, htq, hgr, by rw [hm', ← hmsg], ?_⟩
    intro j t' q' hj hdrop
    by_contra hcontra
    rw [Bool.not_eq_false] at hcontra
    obtain ⟨r, hr⟩ := matchAt_complete t' q' hcontra
    rw [← hdrop] at hr
    rw [hi2 j hj] at hr
    exact absurd hr (by simp)
  · rintro ⟨p, t, q, hs, hgr⟩
    obtain ⟨r, hr⟩ := matchAt_complete t q hgr
    have hdrop : s.drop p.length = t ++ q := by
      rw [hs, List.append_assoc, List.drop_left]
    rcases hf : findMessage s with _ | ⟨n, a⟩
    · have hnone := findMessage_none s hf p.length
      rw [hdrop] at hnone
      rw [hnone] at hr
      exact absurd hr (by simp)
    · exact ⟨_, by rw [ParseTextMessage, hf]⟩

/-- Witness for C10: the input `xx>dds:0;yy` contains the grammar match
`dds:0;` surrounded by junk, and parsing succeeds. -/
theorem parseTextMessage_unanchored_witness :
    (∃ p t q, ('x' :: 'x' :: '>' :: 'd' :: 'd' :: 's' :: ':' :: '0' :: ';' :: 'y' :: 'y' :: [])
        = p ++ t ++ q ∧ matchesGrammar t = true)
    ∧ ∃ m, ParseTextMessage
        ('x' :: 'x' :: '>' :: 'd' :: 'd' :: 's' :: ':' :: '0' :: ';' :: 'y' :: 'y' :: [])
        = some m :=
  ⟨⟨['x', 'x', '>'], ['d', 'd', 's', ':', '0', ';'], ['y', 'y'], by decide, by decide⟩,
   (parseTextMessage_unanchored _).2
     ⟨['x', 'x', '>'], ['d', 'd', 's', ':', '0', ';'], ['y', 'y'], by decide, by decide⟩⟩

end TCI
